import Mathlib

/-!
Verification of `include/verilated_imp.h` (Verilator runtime support layer).

Shallow embedding: each C++ class/function used by the properties below is
translated to a Lean definition over explicit state.  Machine pointers and
`FILE*` values are modelled as `Nat`, C strings as `List Char`, the C++ `int`
counters as `Int`.  A `VL_FATAL_MT` call halts the process, so an operation
that can emit one returns a `VlResult` whose `fatal` constructor marks that
the halting diagnostic path was taken.
-/

/-- Outcome of an operation that may take the `VL_FATAL_MT` halting path. -/
inductive VlResult (α : Type) where
  | fatal : VlResult α
  | ok : α → VlResult α
deriving DecidableEq, Repr

/-!
## Threaded message passing (`VerilatedMsg`, `VerilatedEvalMsgQueue`)

`VerilatedMsg` carries the mtask id of the posting task (captured from
`Verilated::mtaskId()` at construction) and a callback; the callback is
modelled by an opaque `payload : Nat` naming the action, which is enough to
track identity and multiplicity of executed messages.
-/

structure VerilatedMsg where
  mtaskId : Nat
  payload : Nat
deriving DecidableEq, Repr

/-- `VerilatedEvalMsgQueue::m_queue` is a `std::multiset` ordered by
`VerilatedMsg::Cmp`, i.e. by `mtaskId() <`.  We represent the multiset by its
container order: a list kept sorted by mtask id.  `msqInsert` is
`multiset::insert`, which places a new element at the upper bound of its
equal range: after all elements with mtask id `≤` its own, before the first
strictly greater one. -/
def msqInsert (m : VerilatedMsg) : List VerilatedMsg → List VerilatedMsg
  | [] => [m]
  | x :: xs => if m.mtaskId < x.mtaskId then m :: x :: xs else x :: msqInsert m xs

/-- `VerilatedEvalMsgQueue::post`: insert the message into the ordered
multiset (the depth counter mirrors the size and is not tracked
separately). -/
def evalPost (m : VerilatedMsg) (q : List VerilatedMsg) : List VerilatedMsg :=
  msqInsert m q

/-- A sequence of `post` calls in their arrival order. -/
def evalPostAll (msgs : List VerilatedMsg) (q : List VerilatedMsg) : List VerilatedMsg :=
  List.foldl (fun acc m => evalPost m acc) q msgs

/-- `VerilatedEvalMsgQueue::process`: while the queue is non-empty, pop
`begin()` (the least element — the head, since the container is kept in
comparator order) and run its callback.  The returned list is the sequence of
executed messages in execution order. -/
def evalProcess : List VerilatedMsg → List VerilatedMsg
  | [] => []
  | m :: rest => m :: evalProcess rest

theorem evalProcess_eq (q : List VerilatedMsg) : evalProcess q = q := by
  induction q with
  | nil => rfl
  | cons m rest ih => simp [evalProcess, ih]

theorem msqInsert_perm (m : VerilatedMsg) (q : List VerilatedMsg) :
    (msqInsert m q).Perm (m :: q) := by
  induction q with
  | nil => simp [msqInsert]
  | cons x xs ih =>
    by_cases h : m.mtaskId < x.mtaskId
    · simp [msqInsert, h]
    · simp only [msqInsert, h, if_false]
      exact ((ih.cons x).trans (List.Perm.swap m x xs))

theorem msqInsert_sorted (m : VerilatedMsg) (q : List VerilatedMsg)
    (hs : q.Sorted (fun a b => a.mtaskId ≤ b.mtaskId)) :
    (msqInsert m q).Sorted (fun a b => a.mtaskId ≤ b.mtaskId) := by
  induction q with
  | nil => simp [msqInsert]
  | cons x xs ih =>
    rcases List.sorted_cons.mp hs with ⟨hx, hxs⟩
    by_cases h : m.mtaskId < x.mtaskId
    · simp only [msqInsert, h, if_true]
      refine List.sorted_cons.mpr ⟨?_, hs⟩
      intro b hb
      rcases List.mem_cons.mp hb with hb | hb
      · subst hb; exact Nat.le_of_lt h
      · exact Nat.le_trans (Nat.le_of_lt h) (hx b hb)
    · simp only [msqInsert, h, if_false]
      refine List.sorted_cons.mpr ⟨?_, ih hxs⟩
      intro b hb
      have hb2 := (msqInsert_perm m xs).mem_iff.mp hb
      rcases List.mem_cons.mp hb2 with hb3 | hb3
      · subst hb3; exact Nat.le_of_not_lt h
      · exact hx b hb3

theorem evalPostAll_perm (msgs q : List VerilatedMsg) :
    (evalPostAll msgs q).Perm (msgs ++ q) := by
  induction msgs generalizing q with
  | nil => simp [evalPostAll]
  | cons m rest ih =>
    simp only [evalPostAll, List.foldl_cons]
    have h1 : (evalPostAll rest (evalPost m q)).Perm (rest ++ (evalPost m q)) := ih _
    have h2 : (evalPost m q).Perm (m :: q) := msqInsert_perm m q
    exact h1.trans ((List.Perm.append_left rest h2).trans List.perm_middle)

theorem evalPostAll_sorted (msgs q : List VerilatedMsg)
    (hs : q.Sorted (fun a b => a.mtaskId ≤ b.mtaskId)) :
    (evalPostAll msgs q).Sorted (fun a b => a.mtaskId ≤ b.mtaskId) := by
  induction msgs generalizing q with
  | nil => simpa [evalPostAll] using hs
  | cons m rest ih =>
    simp only [evalPostAll, List.foldl_cons]
    exact ih _ (msqInsert_sorted m q hs)

/-- C1: every message posted (in any arrival order) into one
`VerilatedEvalMsgQueue` is executed by `process()` exactly once — the
execution sequence is a permutation of the posted messages — and the
execution order is non-decreasing in the posting task's mtask identifier. -/
theorem evalMsgQueue_process_each_once_in_mtask_order (msgs : List VerilatedMsg) :
    (evalProcess (evalPostAll msgs [])).Perm msgs ∧
    (evalProcess (evalPostAll msgs [])).Sorted (fun a b => a.mtaskId ≤ b.mtaskId) := by
  rw [evalProcess_eq]
  constructor
  · simpa using evalPostAll_perm msgs []
  · exact evalPostAll_sorted msgs [] (by simp)

/-!
## Thread-local staging queue (`VerilatedThreadMsgQueue`)

State is the thread's FIFO `m_queue` (front at the head of the list) together
with the pending-flush counter.

Modelled from the spec: `Verilated::endOfEvalReqdInc` / `endOfEvalReqdDec`
(declared in `verilated.h`, not part of this header) maintain a process-wide
"pending flush" counter, incremented once per staged action and decremented
once per flushed action; we carry it as an `Int` field of the state.
-/

structure ThreadQueueState where
  queue : List VerilatedMsg
  pending : Int
deriving DecidableEq, Repr

/-- `VerilatedThreadMsgQueue::post`: a message whose posting context is
outside any mtask (`Verilated::mtaskId() == 0`, which is also the id the
message captured at construction) runs immediately; otherwise the
pending-flush counter is incremented and the message is pushed at the back
of the FIFO.  The second component lists the messages run immediately. -/
def threadPost (m : VerilatedMsg) (st : ThreadQueueState) :
    ThreadQueueState × List VerilatedMsg :=
  if m.mtaskId = 0 then (st, [m])
  else ({ queue := st.queue ++ [m], pending := st.pending + 1 }, [])

/-- A sequence of `VerilatedThreadMsgQueue::post` calls by one thread. -/
def threadPostAll (msgs : List VerilatedMsg) (st : ThreadQueueState) : ThreadQueueState :=
  List.foldl (fun s m => (threadPost m s).1) st msgs

/-- Loop body of `VerilatedThreadMsgQueue::flush`: while the FIFO is
non-empty, `post` the front message to the eval queue, pop it, and decrement
the pending-flush counter. -/
def flushGo : List VerilatedMsg → List VerilatedMsg → Int →
    List VerilatedMsg × List VerilatedMsg × Int
  | [], evalQ, pending => ([], evalQ, pending)
  | m :: rest, evalQ, pending => flushGo rest (evalPost m evalQ) (pending - 1)

/-- `VerilatedThreadMsgQueue::flush`: drain the staging FIFO into the target
`VerilatedEvalMsgQueue`.  Returns the new thread state and the new eval
queue. -/
def threadFlush (st : ThreadQueueState) (evalQ : List VerilatedMsg) :
    ThreadQueueState × List VerilatedMsg :=
  let r := flushGo st.queue evalQ st.pending
  ({ queue := r.1, pending := r.2.2 }, r.2.1)

theorem flushGo_spec (staged evalQ : List VerilatedMsg) (pending : Int) :
    flushGo staged evalQ pending =
      ([], evalPostAll staged evalQ, pending - staged.length) := by
  induction staged generalizing evalQ pending with
  | nil => simp [flushGo, evalPostAll]
  | cons m rest ih =>
    simp only [flushGo]
    rw [ih]
    simp only [evalPostAll, List.foldl_cons, List.length_cons]
    exact congrArg (Prod.mk _) (congrArg (Prod.mk _) (by push_cast; ring))

theorem threadPostAll_cons (m : VerilatedMsg) (msgs : List VerilatedMsg)
    (st : ThreadQueueState) :
    threadPostAll (m :: msgs) st = threadPostAll msgs (threadPost m st).1 := rfl

theorem threadPostAll_spec (msgs : List VerilatedMsg) (st : ThreadQueueState)
    (h : ∀ m ∈ msgs, m.mtaskId ≠ 0) :
    threadPostAll msgs st =
      { queue := st.queue ++ msgs, pending := st.pending + msgs.length } := by
  induction msgs generalizing st with
  | nil => simp [threadPostAll]
  | cons m rest ih =>
    have hm : m.mtaskId ≠ 0 := h m (List.mem_cons_self m rest)
    rw [threadPostAll_cons]
    have step : (threadPost m st).1 =
        { queue := st.queue ++ [m], pending := st.pending + 1 } := by
      simp [threadPost, hm]
    rw [step, ih _ (fun x hx => h x (List.mem_cons_of_mem m hx))]
    simp only [List.append_assoc, List.singleton_append, List.length_cons]
    exact congrArg (ThreadQueueState.mk _) (by push_cast; ring)

/-- C9: a thread that stages a batch of actions (all posted from inside an
mtask) since its previous flush, and then calls `flush`, transfers exactly
those actions — in the FIFO order in which it posted them — into the target
cross-thread queue via the queue's `post`, ends with an empty staging FIFO,
and returns the pending-flush counter to its value before the batch
(one decrement per action). -/
theorem threadQueue_flush_transfers_fifo (msgs : List VerilatedMsg)
    (p : Int) (evalQ : List VerilatedMsg)
    (h : ∀ m ∈ msgs, m.mtaskId ≠ 0) :
    (threadPostAll msgs { queue := [], pending := p }).queue = msgs ∧
    threadFlush (threadPostAll msgs { queue := [], pending := p }) evalQ =
      ({ queue := [], pending := p }, evalPostAll msgs evalQ) := by
  rw [threadPostAll_spec msgs _ h]
  simp only [List.nil_append, threadFlush, flushGo_spec]
  refine ⟨trivial, ?_⟩
  have hp : p + (msgs.length : Int) - (msgs.length : Int) = p := by ring
  rw [hp]

/-- Witness for C9 at a concrete batch of two messages from mtasks 2 and 1. -/
theorem threadQueue_flush_transfers_fifo_wit :
    (threadPostAll [⟨2, 10⟩, ⟨1, 11⟩] { queue := [], pending := 5 }).queue
        = [⟨2, 10⟩, ⟨1, 11⟩] ∧
    threadFlush (threadPostAll [⟨2, 10⟩, ⟨1, 11⟩] { queue := [], pending := 5 }) [] =
      ({ queue := [], pending := 5 }, evalPostAll [⟨2, 10⟩, ⟨1, 11⟩] []) :=
  threadQueue_flush_transfers_fifo [⟨2, 10⟩, ⟨1, 11⟩] 5 [] (by decide)

/-!
## Export names (`VerilatedImp::exportInsert` / `exportFind`)

`m_exportMap` is a `std::map<const char*, int, VerilatedCStrCmp>`: keys are
compared by string content, so we model it as an association list from
`List Char` to `Int` with at most one entry per key (lookups use the first
entry found, matching `std::map::find`).  `m_exportNext` is the C++ `int`
counter.
-/

/-- `std::map::find` on an association list: the value of the first entry
with the given key, if any. -/
def assocFind {α β : Type} [DecidableEq α] (k : α) : List (α × β) → Option β
  | [] => none
  | e :: rest => if e.1 = k then some e.2 else assocFind k rest

structure ExportState where
  exportMap : List (List Char × Int)
  exportNext : Int
deriving DecidableEq, Repr

/-- `VerilatedImp::exportInsert`: on a miss, `insert(it, make_pair(namep,
m_exportNext++))` records the old counter value and bumps the counter, and
`return m_exportNext++` then returns the bumped value and bumps it again; on
a hit, the recorded value is returned and nothing changes. -/
def exportInsert (name : List Char) (st : ExportState) : Int × ExportState :=
  match assocFind name st.exportMap with
  | none =>
      let recorded := st.exportNext
      let afterRecord := st.exportNext + 1
      (afterRecord,
        { exportMap := st.exportMap ++ [(name, recorded)], exportNext := afterRecord + 1 })
  | some v => (v, st)

/-- `VerilatedImp::exportFind`: return the recorded number on a hit; on a
miss, emit the `VL_FATAL_MT` halting diagnostic. -/
def exportFind (name : List Char) (st : ExportState) : VlResult Int :=
  match assocFind name st.exportMap with
  | some v => VlResult.ok v
  | none => VlResult.fatal

/-- C2 (code bug): on a fresh registry, the first `exportInsert` of a name
returns `1` (the counter is incremented twice: once when recording `0` into
the map, once more in the `return` statement), while a second `exportInsert`
of the same name returns the recorded value `0` — the two calls return
different numbers, contradicting the claimed idempotence. -/
theorem exportInsert_repeat_returns_different_number :
    (exportInsert ['a'] { exportMap := [], exportNext := 0 }).1 = 1 ∧
    (exportInsert ['a'] (exportInsert ['a']
        { exportMap := [], exportNext := 0 }).2).1 = 0 := by
  decide

/-- C3 (code bug): on a fresh registry, `exportInsert "a"` returns `1` but
records `0`, so the subsequent `exportFind "a"` returns `0`, not the number
the insert call returned; a name never inserted (`"b"`) does take the fatal
path. -/
theorem exportFind_disagrees_with_first_insert :
    (exportInsert ['a'] { exportMap := [], exportNext := 0 }).1 = 1 ∧
    exportFind ['a'] (exportInsert ['a']
        { exportMap := [], exportNext := 0 }).2 = VlResult.ok 0 ∧
    exportFind ['b'] (exportInsert ['a']
        { exportMap := [], exportNext := 0 }).2 = VlResult.fatal := by
  decide

/-!
## Command-line plus-arguments (`VerilatedImp::argPlusMatch`)

`m_argVec` is the stored token list, `m_argVecLoaded` the "ever loaded"
flag.  Tokens are C strings (`List Char`); `(*it)[0]` on an empty
`std::string` reads the terminating `'\0'`, which is not `'+'`, so empty
tokens simply never match.
-/

structure ArgState where
  argVec : List (List Char)
  argVecLoaded : Bool
deriving DecidableEq, Repr

/-- `0 == strncmp(prefixp, s, strlen(prefixp))`: the first `strlen(prefixp)`
characters of `s` equal `prefixp` (when `s` is shorter, its terminating
`'\0'` mismatches the corresponding prefix character). -/
def strncmpPrefixHolds : List Char → List Char → Bool
  | [], _ => true
  | _ :: _, [] => false
  | a :: as, b :: bs => a = b && strncmpPrefixHolds as bs

/-- The scan loop of `argPlusMatch`: return the first stored token whose
first character is `'+'` and whose remainder starts with the prefix;
return the empty string when no token matches. -/
def argScanLoop (pre : List Char) : List (List Char) → List Char
  | [] => []
  | tok :: rest =>
      match tok with
      | c :: tl =>
          if c = '+' then
            (if strncmpPrefixHolds pre tl then c :: tl else argScanLoop pre rest)
          else argScanLoop pre rest
      | [] => argScanLoop pre rest

/-- `VerilatedImp::argPlusMatch`: if the argument vector was never loaded,
set the loaded flag (so the complaint happens only once) and take the
`VL_FATAL_MT` halting path; otherwise scan the stored tokens. -/
def argPlusMatch (pre : List Char) (st : ArgState) :
    VlResult (List Char) × ArgState :=
  if st.argVecLoaded = false then
    (VlResult.fatal, { st with argVecLoaded := true })
  else
    (VlResult.ok (argScanLoop pre st.argVec), st)

/-- Spec-side description of a matching token: it begins with `'+'` and its
remainder after the `'+'` starts with the given prefix. -/
def specPlusTokMatch (pre tok : List Char) : Bool :=
  match tok with
  | c :: tl => c = '+' && pre.isPrefixOf tl
  | [] => false

theorem strncmpPrefixHolds_eq_isPrefixOf (p s : List Char) :
    strncmpPrefixHolds p s = p.isPrefixOf s := by
  induction p generalizing s with
  | nil => cases s <;> rfl
  | cons a as ih =>
    cases s with
    | nil => rfl
    | cons b bs =>
      simp only [strncmpPrefixHolds, List.isPrefixOf, ih, Bool.and_eq_true]
      by_cases hab : a = b
      · simp [hab]
      · simp [hab, Ne.symm, beq_eq_false_iff_ne, hab]

theorem argScanLoop_eq_find (pre : List Char) (toks : List (List Char)) :
    argScanLoop pre toks = (toks.find? (specPlusTokMatch pre)).getD [] := by
  induction toks with
  | nil => rfl
  | cons tok rest ih =>
    cases tok with
    | nil => simpa [argScanLoop, List.find?, specPlusTokMatch] using ih
    | cons c tl =>
      by_cases hc : c = '+'
      · subst hc
        by_cases hp : strncmpPrefixHolds pre tl = true
        · have hm : specPlusTokMatch pre ('+' :: tl) = true := by
            simp [specPlusTokMatch, ← strncmpPrefixHolds_eq_isPrefixOf, hp]
          simp [argScanLoop, hp, List.find?, hm]
        · have hpf : strncmpPrefixHolds pre tl = false := Bool.not_eq_true _ ▸ hp
          have hm : specPlusTokMatch pre ('+' :: tl) = false := by
            simp [specPlusTokMatch, ← strncmpPrefixHolds_eq_isPrefixOf, hpf]
          simp [argScanLoop, hp, List.find?, hm, ih]
      · have hm : specPlusTokMatch pre (c :: tl) = false := by
          simp [specPlusTokMatch, hc]
        simp [argScanLoop, hc, List.find?, hm, ih]

/-- C5: once the argument list has been loaded, `argPlusMatch` returns the
first stored token that begins with `'+'` and whose remainder after the
`'+'` starts with the given prefix, and the empty string when no stored
token matches. -/
theorem argPlusMatch_loaded_first_match (pre : List Char) (st : ArgState)
    (h : st.argVecLoaded = true) :
    (argPlusMatch pre st).1 =
      VlResult.ok ((st.argVec.find? (specPlusTokMatch pre)).getD []) := by
  simp [argPlusMatch, h, argScanLoop_eq_find]

/-- Witness for C5 on the spec's example: with loaded arguments
`["+define+FOO=1", "+trace"]`, prefix `"define+"` yields `"+define+FOO=1"`
and prefix `"nomatch"` yields the empty string. -/
theorem argPlusMatch_loaded_first_match_wit :
    (argPlusMatch "define+".toList
        { argVec := ["+define+FOO=1".toList, "+trace".toList], argVecLoaded := true }).1 =
      VlResult.ok "+define+FOO=1".toList ∧
    (argPlusMatch "nomatch".toList
        { argVec := ["+define+FOO=1".toList, "+trace".toList], argVecLoaded := true }).1 =
      VlResult.ok [] := by
  refine ⟨(argPlusMatch_loaded_first_match "define+".toList _ rfl).trans ?_,
    (argPlusMatch_loaded_first_match "nomatch".toList _ rfl).trans ?_⟩ <;> decide

/-- C6: calling `argPlusMatch` before the argument list has ever been loaded
takes the `VL_FATAL_MT` halting path for every prefix. -/
theorem argPlusMatch_unloaded_fatal (pre : List Char) (st : ArgState)
    (h : st.argVecLoaded = false) :
    (argPlusMatch pre st).1 = VlResult.fatal := by
  simp [argPlusMatch, h]

/-- Witness for C6 at a concrete unloaded state. -/
theorem argPlusMatch_unloaded_fatal_wit :
    (argPlusMatch "trace".toList { argVec := [], argVecLoaded := false }).1 =
      VlResult.fatal :=
  argPlusMatch_unloaded_fatal "trace".toList _ rfl

/-!
## Scope name map and user-data map (`VerilatedImp::scopeErase` etc.)

A `VerilatedScope*` is modelled by its pointer identity (`ptr : Nat`) plus
the string returned by `scopep->name()`.  `m_nameMap` maps scope names to
scope handles and has unique keys (`std::map`); `m_userMap` maps
`(scope pointer, user key)` pairs to user data.
-/

structure VerilatedScope where
  ptr : Nat
  name : List Char
deriving DecidableEq, Repr

structure ScopeState where
  nameMap : List (List Char × Nat)
  userMap : List ((Nat × Nat) × Nat)
deriving DecidableEq, Repr

/-- `std::map::erase(find(k))`: remove the (unique) entry with key `k`,
modelled as removal of the first entry with that key. -/
def mapEraseKey {α β : Type} [DecidableEq α] (k : α) : List (α × β) → List (α × β)
  | [] => []
  | e :: rest => if e.1 = k then rest else e :: mapEraseKey k rest

/-- `VerilatedImp::userEraseScope`: iterate over the user map and erase
every entry whose key's first component is the scope pointer. -/
def userEraseScope (p : Nat) (um : List ((Nat × Nat) × Nat)) :
    List ((Nat × Nat) × Nat) :=
  um.filter (fun e => decide (e.1.1 ≠ p))

/-- `VerilatedImp::scopeErase`: cascade `userEraseScope(scopep)` and then
erase the name-map entry at key `scopep->name()`. -/
def scopeErase (s : VerilatedScope) (st : ScopeState) : ScopeState :=
  { userMap := userEraseScope s.ptr st.userMap,
    nameMap := mapEraseKey s.name st.nameMap }

theorem assocFind_mapEraseKey_ne {α β : Type} [DecidableEq α] (k k' : α)
    (l : List (α × β)) (h : k' ≠ k) :
    assocFind k' (mapEraseKey k l) = assocFind k' l := by
  induction l with
  | nil => rfl
  | cons e rest ih =>
    by_cases he : e.1 = k
    · simp only [mapEraseKey, he, if_true]
      have hek : e.1 ≠ k' := he ▸ (Ne.symm h)
      simp [assocFind, hek]
    · by_cases he' : e.1 = k'
      · simp [mapEraseKey, he, assocFind, he', h]
      · simp [mapEraseKey, he, assocFind, he', ih]

theorem assocFind_eq_none_of_not_mem_keys {α β : Type} [DecidableEq α] (k : α)
    (l : List (α × β)) (h : k ∉ l.map Prod.fst) :
    assocFind k l = none := by
  induction l with
  | nil => rfl
  | cons e rest ih =>
    simp only [List.map_cons, List.mem_cons, not_or] at h
    have hek : e.1 ≠ k := fun hq => h.1 hq.symm
    simp only [assocFind, hek, if_false]
    exact ih h.2

theorem assocFind_mapEraseKey_self {α β : Type} [DecidableEq α] (k : α)
    (l : List (α × β)) (hnd : (l.map Prod.fst).Nodup) :
    assocFind k (mapEraseKey k l) = none := by
  induction l with
  | nil => rfl
  | cons e rest ih =>
    simp only [List.map_cons, List.nodup_cons] at hnd
    by_cases he : e.1 = k
    · simp only [mapEraseKey, he, if_true]
      exact assocFind_eq_none_of_not_mem_keys k rest (he ▸ hnd.1)
    · simp only [mapEraseKey, he, if_false, assocFind, if_neg he]
      exact ih hnd.2

theorem assocFind_filter_keep {α β : Type} [DecidableEq α] (k : α)
    (q : α × β → Bool) (l : List (α × β)) (hq : ∀ e : α × β, e.1 = k → q e = true) :
    assocFind k (l.filter q) = assocFind k l := by
  induction l with
  | nil => rfl
  | cons e rest ih =>
    by_cases he : e.1 = k
    · have := hq e he
      simp [List.filter_cons, this, assocFind, he]
    · by_cases hqe : q e = true
      · simp [List.filter_cons, hqe, assocFind, he, ih]
      · simp only [List.filter_cons, hqe, Bool.false_eq_true, if_false, assocFind, he,
          if_false]
        exact ih

theorem assocFind_filter_drop {α β : Type} [DecidableEq α] (k : α)
    (q : α × β → Bool) (l : List (α × β)) (hq : ∀ e : α × β, e.1 = k → q e = false) :
    assocFind k (l.filter q) = none := by
  induction l with
  | nil => rfl
  | cons e rest ih =>
    by_cases he : e.1 = k
    · have := hq e he
      simp [List.filter_cons, this, ih]
    · by_cases hqe : q e = true
      · simp [List.filter_cons, hqe, assocFind, he, ih]
      · simp only [List.filter_cons, hqe, Bool.false_eq_true, if_false]
        exact ih

/-- C7: `scopeErase(S)` removes the name-map entry for `S`'s name and every
user-data entry whose key's first component is `S`'s pointer, while the
name-map entry of any other name and the user-data entry of any other scope
pointer are left unchanged (the name map has unique keys, as a `std::map`
does). -/
theorem scopeErase_removes_scope_frames_others (st : ScopeState)
    (s : VerilatedScope) (n : List Char) (p k : Nat)
    (hnd : (st.nameMap.map Prod.fst).Nodup) (hn : n ≠ s.name) (hp : p ≠ s.ptr) :
    assocFind s.name (scopeErase s st).nameMap = none ∧
    assocFind (s.ptr, k) (scopeErase s st).userMap = none ∧
    assocFind n (scopeErase s st).nameMap = assocFind n st.nameMap ∧
    assocFind (p, k) (scopeErase s st).userMap = assocFind (p, k) st.userMap := by
  refine ⟨?_, ?_, ?_, ?_⟩
  · exact assocFind_mapEraseKey_self s.name st.nameMap hnd
  · simp only [scopeErase, userEraseScope]
    refine assocFind_filter_drop _ _ _ ?_
    intro e he
    rw [he]
    simp
  · exact assocFind_mapEraseKey_ne s.name n st.nameMap hn
  · simp only [scopeErase, userEraseScope]
    refine assocFind_filter_keep _ _ _ ?_
    intro e he
    rw [he]
    simp [hp]

/-- Witness for C7 on a concrete registry with two scopes and three
user-data entries. -/
theorem scopeErase_removes_scope_frames_others_wit :
    assocFind "top".toList (scopeErase ⟨1, "top".toList⟩
      { nameMap := [("top".toList, 1), ("sub".toList, 2)],
        userMap := [((1, 10), 100), ((2, 10), 200), ((1, 11), 101)] }).nameMap = none ∧
    assocFind (1, 10) (scopeErase ⟨1, "top".toList⟩
      { nameMap := [("top".toList, 1), ("sub".toList, 2)],
        userMap := [((1, 10), 100), ((2, 10), 200), ((1, 11), 101)] }).userMap = none ∧
    assocFind "sub".toList (scopeErase ⟨1, "top".toList⟩
      { nameMap := [("top".toList, 1), ("sub".toList, 2)],
        userMap := [((1, 10), 100), ((2, 10), 200), ((1, 11), 101)] }).nameMap =
      assocFind "sub".toList
        ([("top".toList, 1), ("sub".toList, 2)] : List (List Char × Nat)) ∧
    assocFind (2, 10) (scopeErase ⟨1, "top".toList⟩
      { nameMap := [("top".toList, 1), ("sub".toList, 2)],
        userMap := [((1, 10), 100), ((2, 10), 200), ((1, 11), 101)] }).userMap =
      assocFind (2, 10)
        ([((1, 10), 100), ((2, 10), 200), ((1, 11), 101)] : List ((Nat × Nat) × Nat)) :=
  scopeErase_removes_scope_frames_others
    { nameMap := [("top".toList, 1), ("sub".toList, 2)],
      userMap := [((1, 10), 100), ((2, 10), 200), ((1, 11), 101)] }
    ⟨1, "top".toList⟩ "sub".toList 2 10 (by decide) (by decide) (by decide)

/-!
## File handle table (`VerilatedImp::fdNew` / `fdNewMcd` / `fdClose`)

`m_fdps` is the slot array of `FILE*` (a native handle is a `Nat`; an unbound
slot is `none`), `m_fdFree` the descriptor free list, `m_fdFreeMct` the fixed
multi-channel free pool.  The result of the native `fopen` is passed in as an
`Option Nat` parameter so the embedding stays deterministic.  `fdClose`
additionally returns the list of arguments passed to the native `fclose`, in
call order (`none` marks an `fclose` on an unbound slot, i.e. `fclose(NULL)`).
-/

structure FileTable where
  fdps : List (Option Nat)
  fdFree : List Nat
  fdFreeMct : List Nat
deriving DecidableEq, Repr

/-- The `VerilatedImp` constructor: 31 empty slots, an empty descriptor free
list, and the multi-channel pool holding ids `1..30` (pushed in increasing
order, so allocation pops `30` first). -/
def initFileTable : FileTable :=
  { fdps := List.replicate 31 none, fdFree := [], fdFreeMct := List.range' 1 30 }

/-- `VerilatedImp::fdNewMcd`: pop a channel slot off the back of the fixed
pool (zero if the pool is exhausted), store the `fopen` result into the slot,
and return `1 << idx` — or zero if the open failed, the popped slot staying
consumed. -/
def fdNewMcd (openRes : Option Nat) (st : FileTable) : Nat × FileTable :=
  if st.fdFreeMct.isEmpty then (0, st)
  else
    let idx := st.fdFreeMct.getLastD 0
    let st1 := { st with
                 fdFreeMct := st.fdFreeMct.dropLast
                 fdps := st.fdps.set idx openRes }
    match openRes with
    | none => (0, st1)
    | some _ => (2 ^ idx, st1)

/-- `VerilatedImp::fdNew`: `fopen` first — a failure returns zero before any
table state is touched.  On success, grow the slot array and descriptor free
list when the free list is exhausted (new ids `start..start+9` with
`start = max(35, size)`), then pop a free slot, bind it, and return the slot
index with bit 31 set. -/
def fdNew (openRes : Option Nat) (st : FileTable) : Nat × FileTable :=
  match openRes with
  | none => (0, st)
  | some fp =>
      let st1 :=
        if st.fdFree.isEmpty then
          let start := max 35 st.fdps.length
          { st with
            fdps := st.fdps ++ List.replicate (start + 10 - st.fdps.length) none
            fdFree := List.range' start 10 }
        else st
      let idx := st1.fdFree.getLastD 0
      (idx ||| 2 ^ 31,
        { st1 with fdps := st1.fdps.set idx (some fp), fdFree := st1.fdFree.dropLast })

/-- The MCD loop of `VerilatedImp::fdClose`: for each set bit of the mask
(low bit first, at most 31 iterations), `fclose` whatever the slot holds —
even when the slot is unbound — clear the slot, and push its index back onto
the multi-channel free pool.  The `fuel` argument counts the remaining
iterations of the bounded `for` loop. -/
def mcdCloseGo : Nat → Nat → Nat → FileTable → FileTable × List (Option Nat)
  | 0, _, _, st => (st, [])
  | fuel + 1, fdi, i, st =>
      if fdi = 0 then (st, [])
      else
        if fdi % 2 = 1 then
          let closedArg := st.fdps.getD i none
          let st1 := { st with
                       fdps := st.fdps.set i none
                       fdFreeMct := st.fdFreeMct ++ [i] }
          let r := mcdCloseGo fuel (fdi / 2) (i + 1) st1
          (r.1, closedArg :: r.2)
        else mcdCloseGo fuel (fdi / 2) (i + 1) st

/-- `VerilatedImp::fdClose`: bit 31 set means a descriptor handle — out of
range or already-free slots return with no effect, a bound slot is
`fclose`d, cleared, and its index pushed onto the descriptor free list.
Otherwise the handle is a multi-channel bitmask processed by the MCD loop.
The second component is the list of native `fclose` arguments. -/
def fdClose (fdi : Nat) (st : FileTable) : FileTable × List (Option Nat) :=
  if fdi.testBit 31 then
    let idx := fdi % 2 ^ 31
    if st.fdps.length ≤ idx then (st, [])
    else
      match st.fdps.getD idx none with
      | none => (st, [])
      | some f =>
          ({ st with
             fdps := st.fdps.set idx none
             fdFree := st.fdFree ++ [idx] }, [some f])
  else mcdCloseGo 31 fdi 0 st

/-- C8 (code bug, evaluated at the failing input): on a fresh table, closing
the channel bitmask `1 << 3` — none of whose set bits is bound to an open
file — performs a native `fclose` on the unbound slot (`fclose(NULL)`,
recorded as `none`) and pushes index 3 onto the multi-channel free pool
again, changing the table; by contrast, closing the already-free descriptor
handle `(1 << 31) | 5` is a true no-op. -/
theorem fdClose_unbound_channel_closes_and_pushes :
    (fdClose (2 ^ 3) initFileTable).2 = [none] ∧
    (fdClose (2 ^ 3) initFileTable).1.fdFreeMct = initFileTable.fdFreeMct ++ [3] ∧
    fdClose (2 ^ 31 + 5) initFileTable = (initFileTable, []) := by
  decide

/-- C10: when the native `fopen` fails, `fdNew` returns zero with the file
table completely unchanged (the open happens before any allocation), while
`fdNewMcd` pops the channel slot before attempting the open, so its failure
still consumes the slot: the multi-channel free pool loses its back
element. -/
theorem fdNew_fail_atomic_fdNewMcd_consumes_slot (st : FileTable)
    (h : st.fdFreeMct ≠ []) :
    fdNew none st = (0, st) ∧
    (fdNewMcd none st).1 = 0 ∧
    (fdNewMcd none st).2.fdFreeMct = st.fdFreeMct.dropLast ∧
    (fdNewMcd none st).2.fdFreeMct.length + 1 = st.fdFreeMct.length := by
  have hie : st.fdFreeMct.isEmpty = false := by
    cases hq : st.fdFreeMct with
    | nil => exact absurd hq h
    | cons a l => rfl
  refine ⟨rfl, ?_, ?_, ?_⟩
  · simp [fdNewMcd, hie]
  · simp [fdNewMcd, hie]
  · simp only [fdNewMcd, hie, Bool.false_eq_true, if_false, List.length_dropLast]
    have hlen : 0 < st.fdFreeMct.length := List.length_pos.mpr h
    omega

/-- Witness for C10 at the freshly constructed file table. -/
theorem fdNew_fail_atomic_fdNewMcd_consumes_slot_wit :
    fdNew none initFileTable = (0, initFileTable) ∧
    (fdNewMcd none initFileTable).1 = 0 ∧
    (fdNewMcd none initFileTable).2.fdFreeMct = initFileTable.fdFreeMct.dropLast ∧
    (fdNewMcd none initFileTable).2.fdFreeMct.length + 1 =
      initFileTable.fdFreeMct.length :=
  fdNew_fail_atomic_fdNewMcd_consumes_slot initFileTable (by decide)

/-!
## Lock discipline on the fatal-diagnostic paths

Instrumented traces of the two registry operations that can reach
`VL_FATAL_MT`.  Both functions open with `VerilatedLockGuard lock(...)`,
whose destructor releases the mutex only at scope exit; `VL_FATAL_MT` halts
the process inside the scope, so the release never happens on the fatal
path.  A trace lists the lock acquisitions, lock releases, and fatal
emission of one call in program order.
-/

inductive VlLock where
  | argMutex : VlLock
  | exportMutex : VlLock
deriving DecidableEq, Repr

inductive VlEvent where
  | acq : VlLock → VlEvent
  | rel : VlLock → VlEvent
  | fatalEmit : VlEvent
deriving DecidableEq, Repr

/-- Event trace of `VerilatedImp::argPlusMatch`: acquire `m_argMutex`; if the
argument vector was never loaded, emit the fatal diagnostic (the guard is
still in scope and never released); otherwise scan and release at scope
exit. -/
def argPlusMatchTrace (st : ArgState) : List VlEvent :=
  if st.argVecLoaded = false then [VlEvent.acq VlLock.argMutex, VlEvent.fatalEmit]
  else [VlEvent.acq VlLock.argMutex, VlEvent.rel VlLock.argMutex]

/-- Event trace of `VerilatedImp::exportFind`: acquire `m_exportMutex`; on a
lookup miss emit the fatal diagnostic with the guard still in scope;
otherwise return and release at scope exit. -/
def exportFindTrace (name : List Char) (st : ExportState) : List VlEvent :=
  match assocFind name st.exportMap with
  | some _ => [VlEvent.acq VlLock.exportMutex, VlEvent.rel VlLock.exportMutex]
  | none => [VlEvent.acq VlLock.exportMutex, VlEvent.fatalEmit]

/-- Locks held after processing one event. -/
def heldStep (held : List VlLock) : VlEvent → List VlLock
  | VlEvent.acq l => held ++ [l]
  | VlEvent.rel l => held.filter (fun x => decide (x ≠ l))
  | VlEvent.fatalEmit => held

/-- Locks held just before the event at position `i` of a trace. -/
def heldBefore (tr : List VlEvent) (i : Nat) : List VlLock :=
  List.foldl heldStep [] (tr.take i)

/-- The property C4 asserts of a trace: every fatal emission happens with no
lock held. -/
def fatalsLockFree (tr : List VlEvent) : Bool :=
  (List.range tr.length).all fun i =>
    !(tr.getD i (VlEvent.acq VlLock.argMutex) == VlEvent.fatalEmit) ||
      (heldBefore tr i).isEmpty

/-- C4 counterexample: a plus-argument query before the argument list is
loaded emits its fatal diagnostic while `m_argMutex` is held — the claimed
release-before-fatal does not happen. -/
theorem argPlusMatch_fatal_holds_lock_cex :
    fatalsLockFree (argPlusMatchTrace { argVec := [], argVecLoaded := false }) = false := by
  decide

/-- C4 as amended: on both fatal-diagnostic paths (plus-argument query
before load, `exportFind` miss) the fatal diagnostic is emitted while
exactly the registry lock acquired at operation entry is held; the guard
releases only at scope exit, which the halting diagnostic never reaches. -/
theorem fatal_emitted_with_entry_lock_held (st : ArgState) (es : ExportState)
    (name : List Char) (h1 : st.argVecLoaded = false)
    (h2 : assocFind name es.exportMap = none) :
    (argPlusMatchTrace st).getD 1 (VlEvent.acq VlLock.argMutex) = VlEvent.fatalEmit ∧
    heldBefore (argPlusMatchTrace st) 1 = [VlLock.argMutex] ∧
    (exportFindTrace name es).getD 1 (VlEvent.acq VlLock.argMutex) = VlEvent.fatalEmit ∧
    heldBefore (exportFindTrace name es) 1 = [VlLock.exportMutex] := by
  simp [argPlusMatchTrace, exportFindTrace, h1, h2, heldBefore, heldStep]

/-- Witness for the amended C4 at an unloaded argument store and an export
registry not containing the queried name. -/
theorem fatal_emitted_with_entry_lock_held_wit :
    (argPlusMatchTrace { argVec := [], argVecLoaded := false }).getD 1
        (VlEvent.acq VlLock.argMutex) = VlEvent.fatalEmit ∧
    heldBefore (argPlusMatchTrace { argVec := [], argVecLoaded := false }) 1 =
        [VlLock.argMutex] ∧
    (exportFindTrace ['a'] { exportMap := [], exportNext := 0 }).getD 1
        (VlEvent.acq VlLock.argMutex) = VlEvent.fatalEmit ∧
    heldBefore (exportFindTrace ['a'] { exportMap := [], exportNext := 0 }) 1 =
        [VlLock.exportMutex] :=
  fatal_emitted_with_entry_lock_held { argVec := [], argVecLoaded := false }
    { exportMap := [], exportNext := 0 } ['a'] rfl rfl
